import Mathlib

/-!
Verification development for the competitor-keyword-mining system
(services/keyword_mining.py, services/keepa_client.py,
services/amazon_html.py and the merge step of pages/3_Keyword_Intel.py).

The Python sources are shallowly embedded below: pure string processing is
translated to executable functions over `List Char` / `String`, counters
become order-independent sums over the input association list, and the one
genuinely non-deterministic step (pandas `sort_values` on a float score key
over hash-ordered rows) is modeled by a relation that keeps the permutation
and cap structure of the output while abstracting the row order.
-/

set_option maxHeartbeats 1000000
set_option maxRecDepth 8000

namespace SzzV2

/-! ### Generic character and list helpers -/

/-- Characters kept verbatim by the cleaning step in
keyword_mining._clean_text (`re.sub(r"[^a-z0-9\s\-\+.slash]", " ", s)`):
lowercase letters, digits and the separators `- + . /`.  Every other
character — whitespace included, since `\s+` is collapsed and stripped
afterwards — acts as a token separator. -/
def allowedChar (c : Char) : Bool :=
  decide (('a' ≤ c ∧ c ≤ 'z') ∨ ('0' ≤ c ∧ c ≤ '9') ∨ c = '-' ∨ c = '+' ∨ c = '.' ∨ c = '/')

/-- Split a character list at every separator character, keeping empty
fragments (they are filtered out by the caller, which models whitespace
collapsing plus `str.split()`). -/
def splitSep (sep : Char → Bool) : List Char → List (List Char)
  | [] => [[]]
  | c :: rest =>
    let r := splitSep sep rest
    if sep c then [] :: r
    else
      match r with
      | [] => [[c]]
      | g :: gs => (c :: g) :: gs

/-- Fragments of `_clean_text(s).split()`: lowercase the text, treat every
character outside the kept set as a separator, and drop empty fragments. -/
def clean_tokens (s : String) : List String :=
  (((splitSep (fun c => !allowedChar c)) (s.data.map Char.toLower)).filter
    (fun g => !g.isEmpty)).map String.mk

/-- keyword_mining._tokenize: split the cleaned text and keep only tokens of
length greater than 1 (the `stop` parameter of the source function is unused
there). -/
def tokenize (s : String) : List String :=
  (clean_tokens s).filter (fun t => decide (1 < t.length))

/-- keyword_mining._ngrams: all contiguous n-grams whose length n lies in
`[nMin, nMax]`; for `n > len(tokens)` the inner Python `range` is empty. -/
def ngramsOf (tokens : List String) (nMin nMax : Nat) : List (List String) :=
  (List.range' nMin (nMax + 1 - nMin)).flatMap fun n =>
    if tokens.length < n then []
    else (List.range (tokens.length - n + 1)).map fun i => (tokens.drop i).take n

/-- Python whitespace test used by `str.strip()`. -/
def isPySpace (c : Char) : Bool := c.isWhitespace

/-- Drop whitespace from both ends of a character list (`str.strip()`). -/
def trimEnds (l : List Char) : List Char :=
  ((l.dropWhile isPySpace).reverse.dropWhile isPySpace).reverse

/-- Model of Python `str.strip()`. -/
def stripStr (s : String) : String := String.mk (trimEnds s.data)

/-- Model of Python `str.upper()` (`.upper()` in the sources only ever meets
ASCII identifiers, so the per-character basic-latin upcasing of
`Char.toUpper` is faithful). -/
def upperStr (s : String) : String := String.mk (s.data.map Char.toUpper)

/-- Consume a maximal run of leading decimal digits (`\d+` against a
disjoint follow set), returning how many digits were consumed and the rest. -/
def munchDigits : List Char → Nat × List Char
  | [] => (0, [])
  | c :: rest =>
    if c.isDigit then
      let p := munchDigits rest
      (p.1 + 1, p.2)
    else (0, c :: rest)

/-- Consume one optional `[-./]\d+` group: the separator is consumed only
when at least one digit follows, exactly as the anchored regex group can
only participate in a successful match that way. -/
def sepDigits : List Char → List Char
  | [] => []
  | c :: rest =>
    if c = '.' ∨ c = '/' ∨ c = '-' then
      let p := munchDigits rest
      if 0 < p.1 then p.2 else c :: rest
    else c :: rest

/-! ### Embedding of keyword_mining.py: noise filters -/

/-- keyword_mining.UNIT_TOKENS. -/
def UNIT_TOKENS : List String :=
  ["l", "ml", "cl", "dl", "oz", "floz", "inch", "in", "cm", "mm", "m", "kg",
   "g", "lb", "lbs", "pack", "packs", "pcs", "piece", "pieces", "pair"]

/-- ASCII letter, the `[a-z]` class under `re.IGNORECASE`. -/
def isAsciiLetter (c : Char) : Bool := c.isAlpha

/-- First alternative of keyword_mining.SIZE_PAT, anchored:
`\d+([-./]\d+)?([-./]\d+)?([a-z]{1,4})?` — digits, up to two
separator+digits groups and an optional short letter suffix consuming the
rest of the token. -/
def sizeBranchNum (l : List Char) : Bool :=
  let p := munchDigits l
  if p.1 = 0 then false
  else
    let r := sepDigits (sepDigits p.2)
    r.isEmpty || (decide (r.length ≤ 4) && r.all isAsciiLetter)

/-- Second alternative of keyword_mining.SIZE_PAT, anchored:
`[a-z]{1,4}\d+`.  The letter and digit classes are disjoint and the match is
anchored, so it succeeds exactly when the maximal leading letter run has
length 1..4 and the non-empty remainder is all digits. -/
def sizeBranchAlpha (l : List Char) : Bool :=
  let ls := l.takeWhile isAsciiLetter
  let rest := l.dropWhile isAsciiLetter
  decide (1 ≤ ls.length) && decide (ls.length ≤ 4) && !rest.isEmpty &&
    rest.all Char.isDigit

/-- keyword_mining.SIZE_PAT (compiled with IGNORECASE, hence the lowering). -/
def SIZE_PAT_match (t : String) : Bool :=
  let l := t.data.map Char.toLower
  sizeBranchNum l || sizeBranchAlpha l

/-- Unit suffixes of the third pattern in _is_unit_token. -/
def UNIT_SUFFIXES : List String :=
  ["l", "ml", "cl", "dl", "oz", "in", "cm", "mm", "m", "kg", "g", "lb", "lbs"]

/-- Third pattern of _is_unit_token, anchored and case-sensitive:
`\d+(?:[-./]\d+)?(l|ml|...|lbs)`; after the numeric part the remainder must
be exactly one of the unit suffixes. -/
def numUnitMatch (t : String) : Bool :=
  let p := munchDigits t.data
  decide (1 ≤ p.1) && decide (String.mk (sepDigits p.2) ∈ UNIT_SUFFIXES)

/-- Match `pat` literally at the head of `l`, returning the remainder. -/
def dropLead : List Char → List Char → Option (List Char)
  | [], l => some l
  | _ :: _, [] => none
  | p :: ps, c :: cs => if c = p then dropLead ps cs else none

/-- Fourth pattern of _is_unit_token, anchored: `(in|cm|mm|m)\d+`. -/
def unitNumMatch (t : String) : Bool :=
  ["in", "cm", "mm", "m"].any fun u =>
    match dropLead u.data t.data with
    | some r => !r.isEmpty && r.all Char.isDigit
    | none => false

/-- keyword_mining._is_unit_token. -/
def is_unit_token (t : String) : Bool :=
  decide (t ∈ UNIT_TOKENS) || SIZE_PAT_match t || numUnitMatch t || unitNumMatch t

/-- Word character of the regex `\b` boundary (`[A-Za-z0-9_]`). -/
def isWordChar (c : Char) : Bool := c.isAlphanum || c = '_'

/-- The phrases of keyword_mining.UI_NOISE_PATTERNS with their `\b` anchors
stripped (`read (brief|full) content` expanded into its two alternatives). -/
def UI_NOISE_PHRASES : List (List Char) :=
  ["product description", "brief content", "read brief content",
   "read full content", "tap to read", "double tap", "content visible",
   "visit the store", "read more", "see more"].map String.data

/-- Match `pat` at this position and check the right `\b` boundary: the
remainder is empty or starts with a non-word character.  (Every phrase ends
with a word character.) -/
def phraseAt (pat l : List Char) : Bool :=
  match dropLead pat l with
  | some [] => true
  | some (c :: _) => !isWordChar c
  | none => false

/-- Scan all positions of the text for a `\b pat \b` occurrence; `prevWord`
records whether the previous character is a word character (every phrase
starts with a word character, so the left boundary only needs the previous
character to be absent or non-word). -/
def phraseScanFrom (pat : List Char) (prevWord : Bool) : List Char → Bool
  | [] => false
  | c :: rest =>
    (!prevWord && phraseAt pat (c :: rest)) || phraseScanFrom pat (isWordChar c) rest

/-- keyword_mining.UI_NOISE_RE.search (case-insensitive). -/
def ui_noise_search (s : String) : Bool :=
  UI_NOISE_PHRASES.any fun pat => phraseScanFrom pat false (s.data.map Char.toLower)

/-- keyword_mining._ngram_to_text. -/
def joinSpace : List String → String
  | [] => ""
  | [t] => t
  | t :: rest => t ++ " " ++ joinSpace rest

/-- keyword_mining.EN_STOPWORDS (the duplicated "her" of the source is kept;
membership is unaffected). -/
def EN_STOPWORDS : List String :=
  ["a", "an", "the", "and", "or", "but", "if", "while", "as", "than", "then",
   "so", "very", "more", "most", "such", "each", "per",
   "i", "you", "he", "she", "it", "we", "they", "me", "him", "her", "us",
   "them", "my", "your", "his", "her", "its", "our", "their",
   "this", "that", "these", "those", "who", "whom", "whose", "which", "what",
   "where", "when", "why", "how",
   "be", "am", "is", "are", "was", "were", "being", "been", "do", "does",
   "did", "doing", "have", "has", "had", "having",
   "can", "could", "may", "might", "must", "shall", "should", "will", "would",
   "for", "to", "from", "with", "without", "within", "into", "onto", "upon",
   "of", "in", "on", "at", "by", "over", "under",
   "up", "down", "out", "off", "across", "through", "between", "among",
   "along", "around", "behind", "beyond",
   "again", "further", "also", "only", "same", "other", "another", "any",
   "all", "some", "no", "nor", "not",
   "there", "here", "above", "below", "before", "after", "during", "until",
   "against", "about",
   "own", "once", "ever", "never", "always", "sometimes", "often", "usually"]

/-- keyword_mining.DOMAIN_NOISE. -/
def DOMAIN_NOISE : List String :=
  ["set", "kit", "stainless", "steel", "304", "home", "brewing", "brewer",
   "brewers", "brews", "beer", "plastic", "glass", "rubber", "silver",
   "black", "white"]

/-- Python `str.isdigit()` restricted to the ASCII digits that cleaned
tokens can contain. -/
def isDigitStr (t : String) : Bool := !t.data.isEmpty && t.data.all Char.isDigit

/-- The `re.search(r"[a-z]", ...)` check of _is_noise_ngram. -/
def hasLowerAlpha (s : String) : Bool := s.data.any fun c => decide ('a' ≤ c ∧ c ≤ 'z')

/-- keyword_mining._is_noise_ngram.  The stopword-ratio test
`count/len >= 0.5` is encoded exactly as `len ≤ 2 * count`; with the tiny
integer operands involved the float quotient decides the same way. -/
def is_noise_ngram (ng : List String) (stopAll : List String) : Bool :=
  if ng.isEmpty then true
  else if ui_noise_search (joinSpace ng) then true
  else
    let core := ng.filter fun t => !is_unit_token t
    if core.isEmpty then true
    else if (match core with
             | [t] => decide (t ∈ stopAll) || isDigitStr t || decide (t ∈ DOMAIN_NOISE)
             | _ => false) then true
    else if decide (core.headD "" ∈ stopAll) || decide (core.getLastD "" ∈ stopAll) then true
    else if decide (core.length ≤ 2 * (core.filter (fun t => decide (t ∈ stopAll))).length) then true
    else if !hasLowerAlpha (joinSpace core) then true
    else if decide ((joinSpace core).length ≤ 2) then true
    else if core.any (fun t => t = "--" || t = "-" || t = "+") then true
    else false

/-! ### Embedding of keyword_mining.py: mine_keywords_from_cluster -/

/-- Field weights of cfg.weight (defaults 1.0 / 0.7 / 0.4). -/
structure MiningWeights where
  title : ℚ
  bullets : ℚ
  aplus : ℚ
deriving DecidableEq

/-- The mining configuration after the getattr defaulting at the top of
mine_keywords_from_cluster has been resolved: user stopwords, weights,
the n-gram range `[nMin, nMax]`, min_df and max_top. -/
structure MiningCfg where
  stopwords : List String
  weight : MiningWeights
  nMin : Nat
  nMax : Nat
  minDf : Nat
  maxTop : Nat
deriving DecidableEq

/-- stop_all = EN_STOPWORDS | user stopwords (union as membership). -/
def stopAllOf (cfg : MiningCfg) : List String := EN_STOPWORDS ++ cfg.stopwords

/-- One listing's text bundle {title, bullets, aplus, brand}; a missing
dict entry is the empty string (`parts.get(...) or ""`). -/
structure Bundle where
  title : String
  bullets : String
  aplus : String
  brand : String
deriving DecidableEq

/-- Keywords contributed by one field of one listing: n-grams of the
stripped field text surviving _is_noise_ngram, joined with single spaces.
The source iterates `set(grams)`; tokens contain no spaces, so joining is
injective on n-grams and the set is modeled by dedup on the joined keys. -/
def fieldKeys (cfg : MiningCfg) (text : String) : List String :=
  (((ngramsOf (tokenize (stripStr text)) cfg.nMin cfg.nMax).filter
      (fun g => !is_noise_ngram g (stopAllOf cfg))).map joinSpace).dedup

/-- Keys of set(grams_t) for one listing. -/
def titleKeys (cfg : MiningCfg) (b : Bundle) : List String := fieldKeys cfg b.title

/-- Keys of set(grams_b) for one listing. -/
def bulletKeysOf (cfg : MiningCfg) (b : Bundle) : List String := fieldKeys cfg b.bullets

/-- Keys of set(grams_a) for one listing. -/
def aplusKeysOf (cfg : MiningCfg) (b : Bundle) : List String := fieldKeys cfg b.aplus

/-- seen_in_asin: keys contributed by any of the three text fields. -/
def seenKeys (cfg : MiningCfg) (b : Bundle) : List String :=
  (titleKeys cfg b ++ bulletKeysOf cfg b ++ aplusKeysOf cfg b).dedup

/-- texts_by_asin: an insertion-ordered mapping asin -> bundle, modeled as
an association list (Python dict keys are distinct; theorems that count
identifiers assume Nodup of the key list). -/
abbrev KWInput := List (String × Bundle)

/-- df_count[kw]: the number of entries whose seen_in_asin set contains the
keyword — the counter is bumped exactly once per asin. -/
def dfOf (cfg : MiningCfg) (input : KWInput) (kw : String) : Nat :=
  (input.filter fun p => decide (kw ∈ seenKeys cfg p.2)).length

/-- title_hits[kw]: once per asin whose title field contributed kw. -/
def titleHitsOf (cfg : MiningCfg) (input : KWInput) (kw : String) : Nat :=
  (input.filter fun p => decide (kw ∈ titleKeys cfg p.2)).length

/-- bullet_hits[kw]. -/
def bulletHitsOf (cfg : MiningCfg) (input : KWInput) (kw : String) : Nat :=
  (input.filter fun p => decide (kw ∈ bulletKeysOf cfg p.2)).length

/-- aplus_hits[kw]. -/
def aplusHitsOf (cfg : MiningCfg) (input : KWInput) (kw : String) : Nat :=
  (input.filter fun p => decide (kw ∈ aplusKeysOf cfg p.2)).length

/-- tf_weighted[kw]: each asin adds the field weight once per field that
contributed the keyword (set semantics inside a field). -/
def tfWeightedOf (cfg : MiningCfg) (input : KWInput) (kw : String) : ℚ :=
  (input.map fun p =>
    (if kw ∈ titleKeys cfg p.2 then cfg.weight.title else 0) +
    (if kw ∈ bulletKeysOf cfg p.2 then cfg.weight.bullets else 0) +
    (if kw ∈ aplusKeysOf cfg p.2 then cfg.weight.aplus else 0)).sum

/-- per_kw_asins[kw]: the set of contributing asins, in first-seen order
(the source's Python set has no specified order; only membership and, with
distinct input keys, cardinality are observable in the claims proved). -/
def samplesOf (cfg : MiningCfg) (input : KWInput) (kw : String) : List String :=
  (input.filter fun p => decide (kw ∈ seenKeys cfg p.2)).map Prod.fst

/-- Keys of df_count, i.e. the raw candidate pool before the min_df cut. -/
def allKeys (cfg : MiningCfg) (input : KWInput) : List String :=
  (input.flatMap fun p => seenKeys cfg p.2).dedup

/-- One row of the keyword table, with the list behind the joined
sample_asins column.  The score column, round(tf_weighted * (1 +
log1p(df)), 4), is a float function of the tf_weighted and df columns and
enters only the (abstracted) sort order, so it is not stored. -/
structure Row where
  keyword : String
  df : Nat
  tf_weighted : ℚ
  title_hits : Nat
  bullet_hits : Nat
  aplus_hits : Nat
  sample_asins : List String
deriving DecidableEq

/-- The row _build_df creates for one surviving keyword (sample_asins is
capped to the first 8 contributing identifiers). -/
def mkRow (cfg : MiningCfg) (input : KWInput) (kw : String) : Row :=
  { keyword := kw
    df := dfOf cfg input kw
    tf_weighted := tfWeightedOf cfg input kw
    title_hits := titleHitsOf cfg input kw
    bullet_hits := bulletHitsOf cfg input kw
    aplus_hits := aplusHitsOf cfg input kw
    sample_asins := (samplesOf cfg input kw).take 8 }

/-- The rows list of _build_df: every pooled keyword whose df reaches the
threshold (`if dfv < min_df_value: continue`). -/
def rawRows (cfg : MiningCfg) (input : KWInput) (minDfVal : Nat) : List Row :=
  ((allKeys cfg input).filter fun kw => decide (minDfVal ≤ dfOf cfg input kw)).map
    (mkRow cfg input)

/-- The two DataFrame-level cleanups of _build_df: the UI-noise regex on the
keyword column, and dropping rows that hit only the A+ field. -/
def rowPasses (r : Row) : Bool :=
  !ui_noise_search r.keyword &&
    !(decide (r.title_hits = 0) && decide (r.bullet_hits = 0) && decide (0 < r.aplus_hits))

/-- Rows of _build_df after both cleanups, before sorting and capping, in
the canonical first-pooled order. -/
def filteredRows (cfg : MiningCfg) (input : KWInput) (minDfVal : Nat) : List Row :=
  (rawRows cfg input minDfVal).filter rowPasses

/-- Result relation for _build_df(min_df_value).  The source sorts the rows
descending by (score, df, tf_weighted) with pandas sort_values — an
unstable sort on a float key over rows whose order comes from hash-based
set iteration — and then keeps the first max_top rows.  Floating point and
hash order are not embeddable, so the relation records exactly what is
determined: the output is the max_top-cap of some permutation of the
filtered rows.  Every claim proved below is invariant under that
permutation. -/
def IsBuildResult (cfg : MiningCfg) (input : KWInput) (minDfVal : Nat)
    (t : List Row) : Prop :=
  ∃ s : List Row, s.Perm (filteredRows cfg input minDfVal) ∧ t = s.take cfg.maxTop

/-- Result relation for the table returned by mine_keywords_from_cluster:
build with the configured min_df; if that table is empty while the raw pool
is non-empty and min_df > 1, rebuild with min_df = 1; an empty pool yields
the empty (but correctly shaped) table unchanged. -/
def IsMineResult (cfg : MiningCfg) (input : KWInput) (t : List Row) : Prop :=
  ∃ tFirst, IsBuildResult cfg input cfg.minDf tFirst ∧
    ((tFirst = [] ∧ allKeys cfg input ≠ [] ∧ 1 < cfg.minDf ∧ IsBuildResult cfg input 1 t) ∨
     (¬(tFirst = [] ∧ allKeys cfg input ≠ [] ∧ 1 < cfg.minDf) ∧ t = tFirst))

/-- debug_rows: one traceability record per input identifier with the
fields truncated to 200 characters. -/
def debugRows (input : KWInput) : List (String × String × String × String) :=
  input.map fun p =>
    (p.1, String.mk ((stripStr p.2.title).data.take 200),
     String.mk ((stripStr p.2.bullets).data.take 200),
     String.mk ((stripStr p.2.aplus).data.take 200))

/-! ### Embedding of keyword_mining.attach_bsr_signal -/

/-- Stable insertion into a sorted list (used to model Python sorted). -/
def insertLe {α : Type} (le : α → α → Bool) (x : α) : List α → List α
  | [] => [x]
  | y :: ys => if le x y then x :: y :: ys else y :: insertLe le x ys

/-- Stable insertion sort, modeling Python sorted(key=...). -/
def sortLe {α : Type} (le : α → α → Bool) : List α → List α
  | [] => []
  | x :: xs => insertLe le x (sortLe le xs)

/-- One sample of a BSR series: (timestamp, value), the value possibly
missing (product_bsr_series emits None for a trailing odd entry). -/
abbrev BsrSample := Int × Option Int

/-- The per-asin delta of attach_bsr_signal: sort by timestamp, skip series
with fewer than two points, take last = series[-1][1] and
prev = series[-min(len, window)][1] (Python index -0 is 0), and emit
prev - last only when both values are truthy (present and non-zero). -/
def deltaOf (window : Nat) (series : List BsrSample) : Option Int :=
  if series.isEmpty then none
  else
    let s := sortLe (fun x y => decide (x.1 ≤ y.1)) series
    if s.length < 2 then none
    else
      let last := (s.getLastD (0, none)).2
      let k := min s.length window
      let idx := if k = 0 then 0 else s.length - k
      let prev := (s.getD idx (0, none)).2
      match last, prev with
      | some lv, some pv => if lv ≠ 0 ∧ pv ≠ 0 then some (pv - lv) else none
      | _, _ => none

/-- One output row of attach_bsr_signal: the original row plus the two
broadcast columns. -/
structure AnnotRow where
  base : Row
  bsr_sync_signal : String
  bsr_avg_delta_sample : ℚ
deriving DecidableEq

/-- Round half to even at the integer (the mode of Python round). -/
def roundHalfEven (q : ℚ) : ℤ :=
  let f := ⌊q⌋
  let r := q - (f : ℚ)
  if r < 1/2 then f
  else if 1/2 < r then f + 1
  else if f % 2 = 0 then f else f + 1

/-- round(x, 2) on the exact average (the source rounds the float average;
on the concrete claims below the value is an exact small rational). -/
def round2 (q : ℚ) : ℚ := (roundHalfEven (100 * q) : ℚ) / 100

/-- keyword_mining.attach_bsr_signal.  The injected keepa client is modeled
by `seriesOf`: none models a raised exception (the per-asin try/except
skips the asin), some gives product_bsr_series' list. -/
def attach_bsr_signal (kw_table : List Row) (candidate_asins : List String)
    (seriesOf : String → Option (List BsrSample)) (window : Nat) : List AnnotRow :=
  let deltas : List Int := candidate_asins.filterMap fun a => (seriesOf a).bind (deltaOf window)
  let avg : ℚ := if deltas.isEmpty then 0 else (deltas.sum : ℚ) / (deltas.length : ℚ)
  let label : String := if 0 < avg then "Positive" else if avg < 0 then "Negative" else "Neutral"
  kw_table.map fun r => { base := r, bsr_sync_signal := label, bsr_avg_delta_sample := round2 avg }

/-! ### Embedding of keepa_client.KeepaClient.product_related -/

/-- One element of a Keepa relation list: the source keeps only instances
of str, so everything else is collapsed into `other`. -/
inductive KEntry where
  | str (s : String)
  | other
deriving DecidableEq

/-- The four relation lists read from the first returned product. -/
structure KeepaProduct where
  alsoBought : List KEntry
  alsoViewed : List KEntry
  frequentlyBoughtTogether : List KEntry
  related : List KEntry
deriving DecidableEq

/-- Outcome of the Keepa HTTP exchange, as product_related distinguishes
them: a transport failure exhausting the retries, an API-level error field,
an empty products array, or a first product. -/
inductive KeepaResponse where
  | netFail (e : String)
  | apiError (msg : String)
  | noProducts
  | products (p : KeepaProduct)
deriving DecidableEq

/-- Code-point comparison of strings, the order Python sorted uses. -/
def charListLE : List Char → List Char → Bool
  | [], _ => true
  | _ :: _, [] => false
  | a :: as, b :: bs =>
    if a.toNat < b.toNat then true
    else if b.toNat < a.toNat then false
    else charListLE as bs

/-- sorted() over strings. -/
def sortStrings (l : List String) : List String :=
  sortLe (fun a b => charListLE a.data b.data) l

/-- KeepaClient.product_related: with no API key the channel returns an
empty contribution and the warning "No Keepa API Key" without raising;
otherwise the four relation lists are unioned, keeping the 10-character
strings uppercased, the seed is discarded and the set is returned sorted. -/
def product_related (key : String) (asin : String) (resp : KeepaResponse) :
    List String × Option String :=
  if key = "" then ([], some "No Keepa API Key")
  else
    match resp with
    | .netFail e => ([], some ("Keepa request failed: " ++ e))
    | .apiError m => ([], some ("Keepa API error: " ++ m))
    | .noProducts => ([], some "No products returned")
    | .products p =>
      let entries := p.alsoBought ++ p.alsoViewed ++ p.frequentlyBoughtTogether ++ p.related
      let related :=
        ((entries.filterMap fun e =>
          match e with
          | .str s => if s.length = 10 then some (upperStr s) else none
          | .other => none).dedup).filter fun a => a ≠ upperStr asin
      (sortStrings related, none)

/-! ### Embedding of amazon_html: related-ASIN extraction -/

/-- The `[A-Z0-9]` class of ASIN_RE. -/
def isUpAlnum (c : Char) : Bool := c.isUpper || c.isDigit

/-- Try ASIN_RE at this position: a literal "/dp/" followed by ten
`[A-Z0-9]` characters (the regex takes exactly ten; nothing is required of
the following character). -/
def dpHere : List Char → Option (List Char)
  | '/' :: 'd' :: 'p' :: '/' :: rest =>
    let t := rest.take 10
    if t.length = 10 && t.all isUpAlnum then some t else none
  | _ => none

/-- ASIN_RE.search: the leftmost match wins. -/
def asinSearch : List Char → Option String
  | [] => none
  | c :: rest =>
    match dpHere (c :: rest) with
    | some t => some (String.mk t)
    | none => asinSearch rest

/-- The parts of one fetched page that _extract_related_asins reads: the
data-asin attribute values and the href values of links containing /dp/. -/
structure Page where
  dataAsins : List String
  hrefs : List String
deriving DecidableEq

/-- amazon_html._extract_related_asins: data-asin values are stripped,
uppercased and kept only when 10 characters long and starting with "B0";
hrefs contribute the uppercased first ASIN_RE match.  The Python set is
modeled by dedup (order is irrelevant downstream: search_related_html
sorts, and only membership is claimed). -/
def extract_related_asins (p : Page) : List String :=
  ((p.dataAsins.map fun a => upperStr (stripStr a)).filter
      (fun a => decide (a.length = 10) && (match a.data with
        | 'B' :: '0' :: _ => true
        | _ => false)) ++
    p.hrefs.filterMap fun h => (asinSearch h.data).map upperStr).dedup

/-- amazon_html.search_related_html: try the desktop page then the mobile
page (none models a failed or bot-blocked fetch), returning the sorted set
of the first page that yields a non-empty extraction. -/
def search_related_html : List (Option Page) → List String
  | [] => []
  | none :: rest => search_related_html rest
  | some p :: rest =>
    let rel := extract_related_asins p
    if rel.isEmpty then search_related_html rest
    else sortStrings rel

/-! ### Embedding of pages/3_Keyword_Intel.py: merge, dedupe and cap -/

/-- The seed ASIN as the page normalizes it: text input .strip().upper(). -/
def seedNorm (raw : String) : String := upperStr (stripStr raw)

/-- The merge block of 3_Keyword_Intel: union both channels into a set,
keep entries that are truthy, 10 characters long and (uppercased) distinct
from the seed, uppercase them, sort and cap to max_cluster. -/
def mergeRelated (seed_asin : String) (keepaRel htmlRel : List String)
    (max_cluster : Nat) : List String :=
  let all := (keepaRel ++ htmlRel).dedup
  let cleaned :=
    (all.filter fun a =>
      decide (a ≠ "") && decide (a.length = 10) && decide (upperStr a ≠ seed_asin)).map upperStr
  (sortStrings cleaned).take max_cluster

/-- The composed collection flow of 3_Keyword_Intel: normalize the typed
seed, run both channels, merge, dedupe and cap. -/
def collectRelated (rawSeed key : String) (resp : KeepaResponse)
    (pages : List (Option Page)) (cap : Nat) : List String :=
  mergeRelated (seedNorm rawSeed)
    (product_related key (seedNorm rawSeed) resp).1
    (search_related_html pages) cap

/-- The 10-character alphanumeric identifier format of the spec. -/
def isAlnum10 (s : String) : Bool :=
  decide (s.length = 10) && s.data.all Char.isAlphanum

/-- The "B0" test applied to data-asin candidates in
_extract_related_asins. -/
def beginsB0 (s : String) : Bool :=
  match s.data with
  | 'B' :: '0' :: _ => true
  | _ => false

/-! ### Helper lemmas -/

theorem insertLe_perm {α : Type} (le : α → α → Bool) (x : α) (l : List α) :
    (insertLe le x l).Perm (x :: l) := by
  induction l with
  | nil => exact List.Perm.refl _
  | cons y ys ih =>
    unfold insertLe
    by_cases h : le x y
    · rw [if_pos h]
    · rw [if_neg h]
      exact (ih.cons y).trans (List.Perm.swap x y ys)

theorem sortLe_perm {α : Type} (le : α → α → Bool) (l : List α) :
    (sortLe le l).Perm l := by
  induction l with
  | nil => exact List.Perm.refl _
  | cons x xs ih => exact (insertLe_perm le x (sortLe le xs)).trans (ih.cons x)

theorem sortStrings_perm (l : List String) : (sortStrings l).Perm l :=
  sortLe_perm _ l

theorem char_toUpper_idem (c : Char) : (c.toUpper).toUpper = c.toUpper := by
  have key : ∀ (n : Nat) (h : Char.isValidCharNat n), (Char.ofNat n).toNat = n := by
    intro n h
    rw [Char.ofNat, dif_pos h]
    rfl
  simp only [Char.toUpper]
  by_cases h : c.toNat ≥ 97 ∧ c.toNat ≤ 122
  · rw [if_pos h]
    have hv : (Char.ofNat (c.toNat - 32)).toNat = c.toNat - 32 :=
      key _ (Or.inl (by omega))
    rw [if_neg (by rw [hv]; omega)]
  · rw [if_neg h, if_neg h]

theorem upperStr_idem (s : String) : upperStr (upperStr s) = upperStr s := by
  unfold upperStr
  simp [List.map_map, Function.comp_def, char_toUpper_idem]

theorem upperStr_length (s : String) : (upperStr s).length = s.length := by
  cases s with
  | mk data => simp [upperStr, String.length]

theorem tokenize_empty : tokenize "" = [] := rfl

theorem stripStr_empty : stripStr "" = "" := rfl

theorem fieldKeys_empty (cfg : MiningCfg) : fieldKeys cfg "" = [] := by
  unfold fieldKeys
  have h1 : tokenize (stripStr "") = [] := rfl
  rw [h1]
  have h2 : (ngramsOf [] cfg.nMin cfg.nMax).filter
      (fun g => !is_noise_ngram g (stopAllOf cfg)) = [] := by
    rw [List.filter_eq_nil_iff]
    intro g hg
    have hnil : g = [] := by
      rcases List.mem_flatMap.1 hg with ⟨n, _, hgin⟩
      by_cases hlen : ([] : List String).length < n
      · rw [if_pos hlen] at hgin
        cases hgin
      · rw [if_neg hlen] at hgin
        rcases List.mem_map.1 hgin with ⟨i, _, hi⟩
        simpa using hi.symm
    subst hnil
    simp [is_noise_ngram]
  rw [h2]
  rfl

theorem seenKeys_eq_nil (cfg : MiningCfg) (b : Bundle) (htitle : b.title = "")
    (hbul : b.bullets = "") (hapl : b.aplus = "") : seenKeys cfg b = [] := by
  unfold seenKeys titleKeys bulletKeysOf aplusKeysOf
  rw [htitle, hbul, hapl, fieldKeys_empty]
  rfl

theorem isBuild_take (cfg : MiningCfg) (input : KWInput) (m : Nat) :
    IsBuildResult cfg input m ((filteredRows cfg input m).take cfg.maxTop) :=
  ⟨filteredRows cfg input m, List.Perm.refl _, rfl⟩

theorem isBuild_self (cfg : MiningCfg) (input : KWInput) (m : Nat)
    (h : (filteredRows cfg input m).length ≤ cfg.maxTop) :
    IsBuildResult cfg input m (filteredRows cfg input m) :=
  ⟨filteredRows cfg input m, List.Perm.refl _, (List.take_of_length_le h).symm⟩

theorem isMine_noRelax (cfg : MiningCfg) (input : KWInput) (t : List Row)
    (hb : IsBuildResult cfg input cfg.minDf t)
    (hne : ¬(t = [] ∧ allKeys cfg input ≠ [] ∧ 1 < cfg.minDf)) :
    IsMineResult cfg input t :=
  ⟨t, hb, Or.inr ⟨hne, rfl⟩⟩

theorem isMine_relax (cfg : MiningCfg) (input : KWInput) (t : List Row)
    (hfirst : filteredRows cfg input cfg.minDf = [])
    (hpool : allKeys cfg input ≠ []) (hdf : 1 < cfg.minDf)
    (hb : IsBuildResult cfg input 1 t) : IsMineResult cfg input t :=
  ⟨[], ⟨[], hfirst ▸ List.Perm.refl _, List.take_nil.symm⟩,
    Or.inl ⟨rfl, hpool, hdf, hb⟩⟩

theorem mineResult_perm {cfg : MiningCfg} {input : KWInput} {t : List Row}
    (ht : IsMineResult cfg input t)
    (hne : filteredRows cfg input cfg.minDf ≠ [])
    (hlen : (filteredRows cfg input cfg.minDf).length ≤ cfg.maxTop) :
    t.Perm (filteredRows cfg input cfg.minDf) := by
  obtain ⟨t1, ⟨s1, hp1, he1⟩, hor⟩ := ht
  have hs1 : s1.length ≤ cfg.maxTop := by rw [hp1.length_eq]; exact hlen
  have ht1 : t1 = s1 := by rw [he1, List.take_of_length_le hs1]
  have ht1ne : t1 ≠ [] := by
    rw [ht1]
    intro h
    apply hne
    have hl := hp1.length_eq
    rw [h] at hl
    exact (List.length_eq_zero.1 hl.symm)
  cases hor with
  | inl hA => exact absurd hA.1 ht1ne
  | inr hB => rw [hB.2, ht1]; exact hp1

theorem mem_of_mineResult {cfg : MiningCfg} {input : KWInput} {t : List Row}
    (ht : IsMineResult cfg input t) {r : Row} (hr : r ∈ t) :
    r ∈ filteredRows cfg input cfg.minDf ∨ r ∈ filteredRows cfg input 1 := by
  obtain ⟨t1, ⟨s1, hp1, he1⟩, hor⟩ := ht
  cases hor with
  | inl hA =>
    obtain ⟨_, _, _, s, hp, he⟩ := hA
    right
    rw [he] at hr
    exact hp.mem_iff.1 (List.take_subset _ _ hr)
  | inr hB =>
    left
    rw [hB.2, he1] at hr
    exact hp1.mem_iff.1 (List.take_subset _ _ hr)

theorem filteredRows_elim {cfg : MiningCfg} {input : KWInput} {m : Nat} {r : Row}
    (hr : r ∈ filteredRows cfg input m) :
    ∃ kw, kw ∈ allKeys cfg input ∧ m ≤ dfOf cfg input kw ∧ r = mkRow cfg input kw := by
  have h1 := (List.mem_filter.1 hr).1
  obtain ⟨kw, hkw, hrw⟩ := List.mem_map.1 h1
  have h2 := List.mem_filter.1 hkw
  exact ⟨kw, h2.1, by simpa using h2.2, hrw.symm⟩

theorem mem_filteredRows_intro {cfg : MiningCfg} {input : KWInput} {m : Nat} {kw : String}
    (hkw : kw ∈ allKeys cfg input) (hdf : m ≤ dfOf cfg input kw)
    (hp : rowPasses (mkRow cfg input kw) = true) :
    mkRow cfg input kw ∈ filteredRows cfg input m :=
  List.mem_filter.2 ⟨List.mem_map.2 ⟨kw, List.mem_filter.2 ⟨hkw, by simpa⟩, rfl⟩, hp⟩

theorem filteredRows_of_pool_empty (cfg : MiningCfg) (input : KWInput) (m : Nat)
    (h : allKeys cfg input = []) : filteredRows cfg input m = [] := by
  unfold filteredRows rawRows
  rw [h]
  rfl

theorem keepa_mem_upper {key asin : String} {resp : KeepaResponse} {x : String}
    (hx : x ∈ (product_related key asin resp).1) : upperStr x = x := by
  unfold product_related at hx
  by_cases hk : key = ""
  · rw [if_pos hk] at hx
    cases hx
  · rw [if_neg hk] at hx
    cases resp with
    | netFail e => cases hx
    | apiError m => cases hx
    | noProducts => cases hx
    | products p =>
      have hx2 := (sortLe_perm _ _).mem_iff.1 hx
      have hx3 := List.mem_dedup.1 (List.mem_filter.1 hx2).1
      obtain ⟨e, _, hfe⟩ := List.mem_filterMap.1 hx3
      cases e with
      | str s =>
        have hfe2 : (if s.length = 10 then some (upperStr s) else none) = some x := hfe
        by_cases hlen : s.length = 10
        · rw [if_pos hlen] at hfe2
          have hux : upperStr s = x := Option.some_injective _ hfe2
          rw [← hux, upperStr_idem]
        · rw [if_neg hlen] at hfe2
          cases hfe2
      | other =>
        have hfe2 : (none : Option String) = some x := hfe
        cases hfe2

theorem extract_mem_upper {p : Page} {x : String}
    (hx : x ∈ extract_related_asins p) : upperStr x = x := by
  unfold extract_related_asins at hx
  rcases List.mem_append.1 (List.mem_dedup.1 hx) with h | h
  · obtain ⟨a, _, ha⟩ := List.mem_map.1 (List.mem_filter.1 h).1
    rw [← ha, upperStr_idem]
  · obtain ⟨hh, _, hmap⟩ := List.mem_filterMap.1 h
    obtain ⟨y, _, hy⟩ := Option.map_eq_some'.1 hmap
    rw [← hy, upperStr_idem]

theorem search_mem_upper : ∀ {pages : List (Option Page)} {x : String},
    x ∈ search_related_html pages → upperStr x = x := by
  intro pages
  induction pages with
  | nil => intro x hx; cases hx
  | cons op rest ih =>
    cases op with
    | none =>
      intro x hx
      exact ih hx
    | some p =>
      intro x hx
      unfold search_related_html at hx
      by_cases hrel : (extract_related_asins p).isEmpty
      · rw [if_pos hrel] at hx
        exact ih hx
      · rw [if_neg hrel] at hx
        exact extract_mem_upper ((sortLe_perm _ _).mem_iff.1 hx)

theorem mergeRelated_elim {seed : String} {kR hR : List String} {cap : Nat} {x : String}
    (hx : x ∈ mergeRelated seed kR hR cap) :
    ∃ a, a ∈ (kR ++ hR).dedup ∧ a.length = 10 ∧ upperStr a ≠ seed ∧ x = upperStr a := by
  unfold mergeRelated at hx
  have hx2 := (sortLe_perm _ _).mem_iff.1 (List.take_subset _ _ hx)
  obtain ⟨a, ha, hax⟩ := List.mem_map.1 hx2
  have h4 := List.mem_filter.1 ha
  have hcond := h4.2
  simp only [Bool.and_eq_true, decide_eq_true_eq] at hcond
  exact ⟨a, h4.1, hcond.1.2, hcond.2, hax.symm⟩

/-! ### Claim C8 -/

/-- C8: for every seed identifier (and whatever the network exchange would
have produced), product_related with no configured API key returns the
empty contribution paired with the non-fatal warning string "No Keepa API
Key"; being a total function it raises nothing, so the caller's pipeline
(in particular the scrape channel) continues. -/
theorem keepa_missing_key_warns (asin : String) (resp : KeepaResponse) :
    product_related "" asin resp = ([], some "No Keepa API Key") := rfl

/-! ### Claim C7 -/

/-- C7: attach_bsr_signal returns exactly the input rows, in order, with
all original column values unchanged (the base projection of the output is
the input), extended by the two broadcast columns bsr_sync_signal and
bsr_avg_delta_sample whose values agree on every pair of output rows. -/
theorem attach_preserves_rows_and_broadcasts (kw_table : List Row)
    (candidate_asins : List String) (seriesOf : String → Option (List BsrSample))
    (window : Nat) :
    (attach_bsr_signal kw_table candidate_asins seriesOf window).map AnnotRow.base
        = kw_table ∧
    ∀ x ∈ attach_bsr_signal kw_table candidate_asins seriesOf window,
      ∀ y ∈ attach_bsr_signal kw_table candidate_asins seriesOf window,
        x.bsr_sync_signal = y.bsr_sync_signal ∧
        x.bsr_avg_delta_sample = y.bsr_avg_delta_sample := by
  constructor
  · unfold attach_bsr_signal
    rw [List.map_map]
    exact List.map_id _
  · intro x hx y hy
    simp only [attach_bsr_signal, List.mem_map] at hx hy
    obtain ⟨r, _, hr⟩ := hx
    obtain ⟨q, _, hq⟩ := hy
    rw [← hr, ← hq]
    exact ⟨rfl, rfl⟩

/-! ### Claim C2 -/

/-- A two-row ranked table used by the trend-overlay scenarios. -/
def trendTable : List Row :=
  [⟨"pour over coffee", 2, 2, 2, 0, 0, ["B0TESTAAA1"]⟩,
   ⟨"coffee dripper", 1, 1, 1, 0, 0, ["B0TESTBBB2"]⟩]

/-- The rank-series provider of the trend scenario: one candidate whose
series, sorted by timestamp, is [(0,100), (1,90)]. -/
def seriesDown : String → Option (List BsrSample) :=
  fun _ => some [(0, some 100), (1, some 90)]

/-- C2 counterexample: with window = 1 the code's prev index
-min(len, window) = -1 selects the last point itself, so the delta is 0,
the mean delta is 0.0 and every row is labeled "Neutral" — not "Positive"
with delta 10 as claimed. -/
theorem window_one_labels_neutral :
    (attach_bsr_signal trendTable ["B0CAND0001"] seriesDown 1).map
        AnnotRow.bsr_sync_signal = ["Neutral", "Neutral"] ∧
    (attach_bsr_signal trendTable ["B0CAND0001"] seriesDown 1).map
        AnnotRow.bsr_avg_delta_sample = [0, 0] := by
  have hdel : (["B0CAND0001"].filterMap fun a => (seriesDown a).bind (deltaOf 1))
      = [0] := rfl
  unfold attach_bsr_signal
  rw [hdel]
  norm_num [trendTable, round2, roundHalfEven]

/-- C2 amended: on the series [(0,100), (1,90)] the smallest window whose
prev index reaches the earlier point is window = 2; then delta =
100 - 90 = 10, the mean delta is positive, and every row of the table is
labeled "Positive" with rounded mean delta 10 (matching the spec's own
formula delta = value_at(max(0, len - window)) - value_at(last)). -/
theorem window_two_labels_positive :
    (attach_bsr_signal trendTable ["B0CAND0001"] seriesDown 2).map
        AnnotRow.bsr_sync_signal = ["Positive", "Positive"] ∧
    (attach_bsr_signal trendTable ["B0CAND0001"] seriesDown 2).map
        AnnotRow.bsr_avg_delta_sample = [10, 10] := by
  have hdel : (["B0CAND0001"].filterMap fun a => (seriesDown a).bind (deltaOf 2))
      = [10] := rfl
  unfold attach_bsr_signal
  rw [hdel]
  norm_num [trendTable, round2, roundHalfEven]

/-! ### Claim C10 -/

/-- C10: an identifier harvested from a data-asin attribute survives only
when it begins with "B0" (first conjunct: a page whose links yield no ASIN
match produces only "B0"-prefixed identifiers); the concrete page holding
the valid 10-character identifier "C012345678" only in a data-asin
attribute yields an empty related list, so that identifier is absent;
identifiers reached through /dp/ links carry no "B0" restriction:
"C012345678" is returned when it appears in a /dp/ href. -/
theorem dataAsin_needs_B0_dp_links_do_not :
    (∀ p : Page, (∀ h ∈ p.hrefs, asinSearch h.data = none) →
      ∀ a ∈ extract_related_asins p, beginsB0 a = true) ∧
    search_related_html [some (Page.mk ["C012345678"] [])] = [] ∧
    "C012345678" ∉ search_related_html [some (Page.mk ["C012345678"] [])] ∧
    "C012345678" ∈ search_related_html [some (Page.mk []
      ["https://www.amazon.com/dp/C012345678?ref=1"])] := by
  refine ⟨?_, by decide, by decide, by decide⟩
  intro p hnone a ha
  unfold extract_related_asins at ha
  rcases List.mem_append.1 (List.mem_dedup.1 ha) with h | h
  · have hcond := (List.mem_filter.1 h).2
    simp only [Bool.and_eq_true] at hcond
    exact hcond.2
  · obtain ⟨hh, hhmem, hmap⟩ := List.mem_filterMap.1 h
    rw [hnone hh hhmem] at hmap
    cases hmap

/-- C10 witness: instantiating the universal part on a concrete link-free
page shows the non-"B0" identifier "C012345678" cannot be extracted. -/
theorem dataAsin_needs_B0_witness :
    "C012345678" ∉ extract_related_asins (Page.mk ["C012345678", "B098765432"] []) := by
  intro hmem
  have hb := dataAsin_needs_B0_dp_links_do_not.1
    (Page.mk ["C012345678", "B098765432"] [])
    (by intro h hh; cases hh) _ hmem
  exact absurd hb (by decide)

/-! ### Claim C5 -/

/-- C5 counterexample: the merge filter checks only `len(a) == 10` (and the
structured channel checks only `isinstance(x, str) and len(x) == 10`), so a
10-character Keepa relation entry containing a hyphen reaches the merged
related-id set even though it is not alphanumeric. -/
theorem merged_contains_non_alphanumeric :
    "ABCDEFGH-Z" ∈ collectRelated " b0seed0000 " "KEY"
      (KeepaResponse.products ⟨[KEntry.str "abcdefgh-z"], [], [], []⟩) [] 80 ∧
    isAlnum10 "ABCDEFGH-Z" = false := by
  exact ⟨by decide, by decide⟩

/-- C5 amended: for every typed seed, credential, structured-channel
response and scraped pages, the merged, deduped and capped related-id list
never contains the (normalized) seed, never contains two entries that agree
case-insensitively (it is duplicate-free and all entries are
uppercase-fixed), and every entry is exactly 10 characters long — the
10-character length is enforced, but alphanumeric-ness is not checked
anywhere on the structured channel or the data-asin path. -/
theorem merged_no_seed_no_dups_len10 (rawSeed key : String) (resp : KeepaResponse)
    (pages : List (Option Page)) (cap : Nat) :
    seedNorm rawSeed ∉ collectRelated rawSeed key resp pages cap ∧
    (collectRelated rawSeed key resp pages cap).Nodup ∧
    (∀ a ∈ collectRelated rawSeed key resp pages cap,
      a.length = 10 ∧ upperStr a = a) ∧
    (∀ a ∈ collectRelated rawSeed key resp pages cap,
      ∀ b ∈ collectRelated rawSeed key resp pages cap,
        upperStr a = upperStr b → a = b) := by
  have hupAll : ∀ x ∈ ((product_related key (seedNorm rawSeed) resp).1 ++
      search_related_html pages).dedup, upperStr x = x := by
    intro x hx
    rcases List.mem_append.1 (List.mem_dedup.1 hx) with h | h
    · exact keepa_mem_upper h
    · exact search_mem_upper h
  have hmain : ∀ x ∈ collectRelated rawSeed key resp pages cap,
      x.length = 10 ∧ upperStr x = x ∧ x ≠ seedNorm rawSeed := by
    intro x hx
    obtain ⟨a, _, hlen, hne, hxa⟩ := mergeRelated_elim hx
    subst hxa
    exact ⟨by rw [upperStr_length]; exact hlen, upperStr_idem a, hne⟩
  have hnd : (collectRelated rawSeed key resp pages cap).Nodup := by
    unfold collectRelated mergeRelated
    apply List.Sublist.nodup (List.take_sublist _ _)
    rw [List.Perm.nodup_iff (sortStrings_perm _)]
    have hfix : ∀ a ∈ ((product_related key (seedNorm rawSeed) resp).1 ++
        search_related_html pages).dedup.filter
          (fun a => decide (a ≠ "") && decide (a.length = 10)
            && decide (upperStr a ≠ seedNorm rawSeed)), upperStr a = a := by
      intro a ha
      exact hupAll a (List.mem_filter.1 ha).1
    rw [List.map_congr_left hfix, List.map_id']
    exact List.Sublist.nodup (List.filter_sublist _) (List.nodup_dedup _)
  refine ⟨?_, hnd, ?_, ?_⟩
  · intro hmem
    exact (hmain _ hmem).2.2 rfl
  · intro a ha
    exact ⟨(hmain a ha).1, (hmain a ha).2.1⟩
  · intro a ha b hb hab
    rw [← (hmain a ha).2.1, hab, (hmain b hb).2.1]

/-! ### Claim C4 -/

/-- Test for a bundle with at least one non-empty field. -/
def hasAnyField (b : Bundle) : Bool :=
  !(decide (b.title = "") && decide (b.bullets = "") && decide (b.aplus = "")
    && decide (b.brand = ""))

/-- C4: in every possible mined table, every row's document_frequency is at
most the number of distinct input identifiers having at least one non-empty
field — the counters record each identifier at most once per keyword (set
semantics per field, and seen_in_asin bumps df once per identifier), and an
identifier with all fields empty contributes no keys at all. -/
theorem df_bounded_by_contributing_ids (cfg : MiningCfg) (input : KWInput)
    (hkeys : (input.map Prod.fst).Nodup) (t : List Row)
    (ht : IsMineResult cfg input t) :
    ∀ r ∈ t, r.df ≤ (input.filter fun p => hasAnyField p.2).length := by
  intro r hr
  have key : ∀ m, r ∈ filteredRows cfg input m →
      r.df ≤ (input.filter fun p => hasAnyField p.2).length := by
    intro m hm
    obtain ⟨kw, _, _, hrw⟩ := filteredRows_elim hm
    subst hrw
    show dfOf cfg input kw ≤ _
    unfold dfOf
    rw [← List.countP_eq_length_filter, ← List.countP_eq_length_filter]
    apply List.countP_mono_left
    intro p _ hp
    have hmem : kw ∈ seenKeys cfg p.2 := of_decide_eq_true hp
    unfold hasAnyField
    cases hq : (decide (p.2.title = "") && decide (p.2.bullets = "") &&
        decide (p.2.aplus = "") && decide (p.2.brand = "")) with
    | false => rfl
    | true =>
      exfalso
      simp only [Bool.and_eq_true, decide_eq_true_eq] at hq
      rw [seenKeys_eq_nil cfg p.2 hq.1.1.1 hq.1.1.2 hq.1.2] at hmem
      cases hmem
  rcases mem_of_mineResult ht hr with h | h
  · exact key _ h
  · exact key _ h

/-- Configuration for the single-listing witness instance (min_df 1). -/
def cfgZ : MiningCfg := ⟨[], ⟨1, 7/10, 2/5⟩, 1, 2, 1, 200⟩

/-- Witness input: one identifier with a one-token title. -/
def inputZ : KWInput := [("B0ZZZZZZZ1", ⟨"zzz", "", "", ""⟩)]

theorem mineZ : IsMineResult cfgZ inputZ (filteredRows cfgZ inputZ 1) :=
  isMine_noRelax cfgZ inputZ _ (isBuild_self cfgZ inputZ 1 (by decide))
    (fun h => absurd h.2.2 (by decide))

theorem memZ : mkRow cfgZ inputZ "zzz" ∈ filteredRows cfgZ inputZ 1 :=
  @mem_filteredRows_intro cfgZ inputZ 1 "zzz" (by decide) (by decide) (by decide)

/-- C4 witness: on the concrete single-listing run, the surviving keyword
"zzz" has df bounded by the one contributing identifier. -/
theorem df_bounded_witness :
    (mkRow cfgZ inputZ "zzz").df ≤ (inputZ.filter fun p => hasAnyField p.2).length :=
  df_bounded_by_contributing_ids cfgZ inputZ (by decide) _ mineZ _ memZ

/-! ### Claim C9 -/

/-- C9: in every possible mined table, each row's sample list is
duplicate-free and has exactly min(df, 8) entries — per_kw_asins records
the same identifier filter that df counts, so its cardinality equals df and
the emitted [:8] cap yields min(df, 8) — and every listed identifier is an
input identifier that contributed the row's keyword in some field. -/
theorem sample_asins_are_min_df_8_contributors (cfg : MiningCfg) (input : KWInput)
    (hkeys : (input.map Prod.fst).Nodup) (t : List Row)
    (ht : IsMineResult cfg input t) :
    ∀ r ∈ t, r.sample_asins.Nodup ∧ r.sample_asins.length = min r.df 8 ∧
      ∀ a ∈ r.sample_asins, ∃ b : Bundle, (a, b) ∈ input ∧ r.keyword ∈ seenKeys cfg b := by
  intro r hr
  have key : ∀ m, r ∈ filteredRows cfg input m →
      r.sample_asins.Nodup ∧ r.sample_asins.length = min r.df 8 ∧
      ∀ a ∈ r.sample_asins, ∃ b : Bundle, (a, b) ∈ input ∧ r.keyword ∈ seenKeys cfg b := by
    intro m hm
    obtain ⟨kw, _, _, hrw⟩ := filteredRows_elim hm
    subst hrw
    refine ⟨?_, ?_, ?_⟩
    · apply List.Sublist.nodup (List.take_sublist _ _)
      unfold samplesOf
      exact List.Sublist.nodup (List.Sublist.map Prod.fst (List.filter_sublist _)) hkeys
    · show ((samplesOf cfg input kw).take 8).length = min (dfOf cfg input kw) 8
      rw [List.length_take]
      have hlen : (samplesOf cfg input kw).length = dfOf cfg input kw := by
        unfold samplesOf dfOf
        rw [List.length_map]
      rw [hlen, Nat.min_comm]
    · intro a ha
      have ha2 := List.take_subset _ _ ha
      obtain ⟨p, hp, hpa⟩ := List.mem_map.1 ha2
      have hp2 := List.mem_filter.1 hp
      refine ⟨p.2, ?_, of_decide_eq_true hp2.2⟩
      have hpair : (a, p.2) = p := by rw [← hpa]
      rw [hpair]
      exact hp2.1
  rcases mem_of_mineResult ht hr with h | h
  · exact key _ h
  · exact key _ h

/-- C9 witness: on the concrete single-listing run, the row for "zzz"
lists exactly min(df, 8) sample identifiers. -/
theorem sample_asins_witness :
    (mkRow cfgZ inputZ "zzz").sample_asins.length = min (mkRow cfgZ inputZ "zzz").df 8 :=
  (sample_asins_are_min_df_8_contributors cfgZ inputZ (by decide) _ mineZ _ memZ).2.1

/-! ### Claim C1 -/

/-- The configuration of the ranking scenario: no user stopwords (the
standard English list EN_STOPWORDS is built in and DOMAIN_NOISE already
holds "steel"), default weights, ngram_range [1,2], min_df 2, max_top
200. -/
def cfg1 : MiningCfg := ⟨[], ⟨1, 7/10, 2/5⟩, 1, 2, 2, 200⟩

/-- The two listings of the ranking scenario, all fields but the title
empty. -/
def pourInput : KWInput :=
  [("B0TESTAAA1", ⟨"stainless steel pour over coffee dripper", "", "", ""⟩),
   ("B0TESTBBB2", ⟨"ceramic pour over coffee maker", "", "", ""⟩)]

theorem minePour : IsMineResult cfg1 pourInput (filteredRows cfg1 pourInput 2) :=
  isMine_noRelax cfg1 pourInput _ (isBuild_self cfg1 pourInput 2 (by decide))
    (fun h => absurd h.1 (by decide))

/-- C1 counterexample: on the two scenario titles the bigram "pour over" is
rejected by _is_noise_ngram — its last token "over" is an English stopword
— so it never reaches the ranked table at all, contradicting the claimed
document_frequency = 2 appearance; the exhibited table is a possible
mine_keywords_from_cluster result. -/
theorem pour_over_absent_from_table :
    IsMineResult cfg1 pourInput (filteredRows cfg1 pourInput 2) ∧
    "pour over" ∉ (filteredRows cfg1 pourInput 2).map Row.keyword :=
  ⟨minePour, by decide⟩

/-- C1 amended: on the two scenario titles with min_df = 2, the unigrams
"pour" and "coffee" (not the bigram "pour over", whose trailing stopword
"over" makes the noise filter reject it) both appear with
document_frequency = 2; they are the only rows of the table, so every
n-gram occurring in a single title is excluded by the min_df threshold and
trivially ranks below them. -/
theorem pour_and_coffee_df2_only_rows (t : List Row)
    (ht : IsMineResult cfg1 pourInput t) :
    (∃ r ∈ t, r.keyword = "pour" ∧ r.df = 2) ∧
    (∃ r ∈ t, r.keyword = "coffee" ∧ r.df = 2) ∧
    (∀ r ∈ t, r.keyword = "pour" ∨ r.keyword = "coffee") ∧
    "pour over" ∉ t.map Row.keyword := by
  have hperm : t.Perm (filteredRows cfg1 pourInput cfg1.minDf) :=
    mineResult_perm ht (by decide) (by decide)
  refine ⟨?_, ?_, ?_, ?_⟩
  · obtain ⟨r, hr, hprop⟩ := (by decide :
      ∃ r ∈ filteredRows cfg1 pourInput 2, r.keyword = "pour" ∧ r.df = 2)
    exact ⟨r, hperm.mem_iff.2 hr, hprop⟩
  · obtain ⟨r, hr, hprop⟩ := (by decide :
      ∃ r ∈ filteredRows cfg1 pourInput 2, r.keyword = "coffee" ∧ r.df = 2)
    exact ⟨r, hperm.mem_iff.2 hr, hprop⟩
  · intro r hr
    exact (by decide : ∀ r ∈ filteredRows cfg1 pourInput 2,
      r.keyword = "pour" ∨ r.keyword = "coffee") r (hperm.mem_iff.1 hr)
  · intro hmem
    obtain ⟨r, hr, hk⟩ := List.mem_map.1 hmem
    have habs : "pour over" ∈ (filteredRows cfg1 pourInput 2).map Row.keyword :=
      List.mem_map.2 ⟨r, hperm.mem_iff.1 hr, hk⟩
    exact absurd habs (by decide)

/-- C1 witness: the amended theorem applied to the concrete scenario
result. -/
theorem pour_and_coffee_df2_witness :
    ∃ r ∈ filteredRows cfg1 pourInput 2, r.keyword = "pour" ∧ r.df = 2 :=
  (pour_and_coffee_df2_only_rows (filteredRows cfg1 pourInput 2) minePour).1

/-! ### Claim C3 -/

/-- Relaxation-scenario configuration: min_df 2, default cap. -/
def cfgW : MiningCfg := ⟨[], ⟨1, 7/10, 2/5⟩, 1, 2, 2, 200⟩

/-- Two listings with disjoint titles: every candidate has df = 1, so the
min_df = 2 build is empty while the pool is not. -/
def inputW : KWInput :=
  [("B0WIDGETA1", ⟨"alpha widget", "", "", ""⟩),
   ("B0GADGETB2", ⟨"gamma gadget", "", "", ""⟩)]

/-- The relaxation-scenario configuration with the cap set to 1. -/
def cfgCap : MiningCfg := ⟨[], ⟨1, 7/10, 2/5⟩, 1, 2, 2, 1⟩

/-- C3 counterexample: with max_top = 1 the min_df = 2 build is empty and
the relaxed min_df = 1 rebuild is capped to a single row, although six
candidates with df = 1 pass the noise filters — the relaxed result is a
possible mine_keywords_from_cluster output and is not "exactly the set of
df = 1 candidates". -/
theorem relaxed_table_truncated_by_cap :
    IsMineResult cfgCap inputW ((filteredRows cfgCap inputW 1).take 1) ∧
    ((filteredRows cfgCap inputW 1).take 1).length = 1 ∧
    ((filteredRows cfgCap inputW 1).filter fun r => decide (r.df = 1)).length = 6 := by
  refine ⟨isMine_relax cfgCap inputW _ (by decide) (by decide) (by decide) ?_,
    by decide, by decide⟩
  exact isBuild_take cfgCap inputW 1

/-- C3 amended: whenever the min_df = 2 build yields zero rows while the
raw candidate pool is non-empty, mine_keywords_from_cluster retries with
min_df = 1 and — provided the df = 1 candidates that pass the noise
filters fit within max_top, which the original claim left implicit — the
returned table holds exactly those candidates; and whenever the pool
itself is empty the function returns the zero-row table (same fixed
columns, Row's fields) rather than an error. -/
theorem relaxation_yields_df1_rows_up_to_cap (cfg : MiningCfg) (input : KWInput)
    (t : List Row) (hmdf : cfg.minDf = 2) (ht : IsMineResult cfg input t) :
    (allKeys cfg input = [] → t = []) ∧
    ((filteredRows cfg input 2 = [] ∨ cfg.maxTop = 0) → allKeys cfg input ≠ [] →
      ((filteredRows cfg input 1).filter fun r => decide (r.df = 1)).length ≤ cfg.maxTop →
      ∀ kw : String, (∃ r ∈ t, r.keyword = kw) ↔
        ∃ r ∈ filteredRows cfg input 1, r.keyword = kw ∧ r.df = 1) := by
  constructor
  · intro hpool
    obtain ⟨t1, ⟨s1, hp1, he1⟩, hor⟩ := ht
    have hf : filteredRows cfg input cfg.minDf = [] :=
      filteredRows_of_pool_empty _ _ _ hpool
    have hs1 : s1 = [] := by
      have hl := hp1.length_eq
      rw [hf] at hl
      exact List.length_eq_zero.1 hl
    have ht1 : t1 = [] := by rw [he1, hs1, List.take_nil]
    cases hor with
    | inl hA => exact absurd hpool hA.2.1
    | inr hB => rw [hB.2, ht1]
  · intro h0 hpool hcap kw
    obtain ⟨t1, ⟨s1, hp1, he1⟩, hor⟩ := ht
    have ht1 : t1 = [] := by
      cases h0 with
      | inl hf2 =>
        have hs1 : s1 = [] := by
          have hl := hp1.length_eq
          rw [hmdf, hf2] at hl
          exact List.length_eq_zero.1 hl
        rw [he1, hs1, List.take_nil]
      | inr hm0 => rw [he1, hm0, List.take_zero]
    have hrelax : IsBuildResult cfg input 1 t := by
      cases hor with
      | inl hA => exact hA.2.2.2
      | inr hB => exact absurd ⟨ht1, hpool, by omega⟩ hB.1
    obtain ⟨s, hp, hte⟩ := hrelax
    by_cases hm0 : cfg.maxTop = 0
    · have ht_nil : t = [] := by rw [hte, hm0, List.take_zero]
      constructor
      · rintro ⟨r, hr, -⟩
        rw [ht_nil] at hr
        cases hr
      · rintro ⟨r, hr, -, hdf1⟩
        exfalso
        have hrmem : r ∈ (filteredRows cfg input 1).filter fun r => decide (r.df = 1) :=
          List.mem_filter.2 ⟨hr, by simp [hdf1]⟩
        have hpos := List.length_pos_of_mem hrmem
        omega
    · have hf2 : filteredRows cfg input 2 = [] := by
        cases h0 with
        | inl h => exact h
        | inr h => exact absurd h hm0
      have hdf1 : ∀ r ∈ filteredRows cfg input 1, r.df = 1 := by
        intro r hr
        obtain ⟨kw2, hkw2, hge1, hrw⟩ := filteredRows_elim hr
        have hpass : rowPasses r = true := (List.mem_filter.1 hr).2
        subst hrw
        have hdfval : (mkRow cfg input kw2).df = dfOf cfg input kw2 := rfl
        by_contra hne1
        have hge2 : 2 ≤ dfOf cfg input kw2 := by omega
        have hmem2 : mkRow cfg input kw2 ∈ filteredRows cfg input 2 :=
          mem_filteredRows_intro hkw2 hge2 hpass
        rw [hf2] at hmem2
        cases hmem2
      have hfeq : (filteredRows cfg input 1).filter (fun r => decide (r.df = 1))
          = filteredRows cfg input 1 :=
        List.filter_eq_self.2 (fun r hr => by simp [hdf1 r hr])
      have hslen : s.length ≤ cfg.maxTop := by
        rw [hp.length_eq, ← hfeq]
        exact hcap
      have hts : t = s := by rw [hte, List.take_of_length_le hslen]
      have hperm : t.Perm (filteredRows cfg input 1) := hts ▸ hp
      constructor
      · rintro ⟨r, hr, hk⟩
        have hr2 := hperm.mem_iff.1 hr
        exact ⟨r, hr2, hk, hdf1 r hr2⟩
      · rintro ⟨r, hr, hk, -⟩
        exact ⟨r, hperm.mem_iff.2 hr, hk⟩

theorem mineW : IsMineResult cfgW inputW (filteredRows cfgW inputW 1) :=
  isMine_relax cfgW inputW _ (by decide) (by decide) (by decide)
    (isBuild_self cfgW inputW 1 (by decide))

/-- C3 witness: the amended theorem applied to the concrete relaxation
scenario at the keyword "alpha". -/
theorem relaxation_witness :
    (∃ r ∈ filteredRows cfgW inputW 1, r.keyword = "alpha") ↔
    (∃ r ∈ filteredRows cfgW inputW 1, r.keyword = "alpha" ∧ r.df = 1) :=
  (relaxation_yields_df1_rows_up_to_cap cfgW inputW (filteredRows cfgW inputW 1)
    rfl mineW).2 (Or.inl (by decide)) (by decide) (by decide) "alpha"

end SzzV2
